import Mathlib

/-
Verification of the exponential-family HMM EM example (examples/ghmm_em.py).

The source is a single Python module.  Its pieces are shallowly embedded here:
* numeric utilities (`fixed_point`, `same`, `normalize`, `inner`) over exact
  rationals / reals;
* the log-space forward algorithm `hmm_log_partition_function` over `ℝ`,
  with the free name `statistic` of the source modelled as an explicit
  function argument `stat` (the name is unbound in the source, see the
  name-resolution model below);
* the `Gaussian` and `NormalInverseWishart` exponential families;
* the error behaviour of `EM` as an `Except`-monad pipeline in which the
  resolution of free Python names is modelled explicitly.

The file is laid out as definitions first, then the theorems about them.
-/

namespace GHMM

open scoped Classical

/-! ### Numeric utilities over exact rationals

`np.allclose(a, b)` holds elementwise when `|a - b| <= atol + rtol * |b|`
with numpy defaults `rtol = 1e-5`, `atol = 1e-8`.  We model arrays as lists
of rationals, so the tolerance arithmetic is exact. -/

def rtol : ℚ := 1 / 100000

def atol : ℚ := 1 / 100000000

def allclose (a b : List ℚ) : Bool :=
  (a.zip b).all fun q => |q.1 - q.2| ≤ atol + rtol * |q.2|

/-- Nested parameter values: numpy arrays (flattened to a list of entries)
and tuples/lists of such values, as handled by the source's `same`. -/
inductive NVal where
  | arr (entries : List ℚ)
  | tup (items : List NVal)

mutual

/-- Source `same(a, b)`: `np.allclose` on arrays, otherwise
`all(map(same, a, b))`.  Python 2 `map` over unequal lengths pads with
`None` and the source then raises; we model the comparison on the zipped
common part (all uses in the source compare structurally equal shapes).
Comparing an array against a tuple is a type error in the source; it is
modelled as `false`. -/
def same : NVal → NVal → Bool
  | .arr a, .arr b => allclose a b
  | .tup a, .tup b => sameList a b
  | _, _ => false

def sameList : List NVal → List NVal → Bool
  | [], _ => true
  | _ :: _, [] => true
  | a :: as, b :: bs => same a b && sameList as bs

end

/-- Source `fixed_point(f, x0)`: `x1 = f(x0); while not same(x0, x1):
x0, x1 = x1, f(x1); return x1`.  The loop need not terminate, so the
embedding carries explicit fuel; `none` means the fuel ran out before the
convergence test succeeded. -/
def fixed_point (fuel : ℕ) (f : NVal → NVal) (x0 : NVal) : Option NVal :=
  fixed_point_go fuel f x0 (f x0)
where
  fixed_point_go : ℕ → (NVal → NVal) → NVal → NVal → Option NVal
    | 0, _, _, _ => none
    | fuel + 1, f, x0, x1 =>
      if same x0 x1 then some x1 else fixed_point_go fuel f x1 (f x1)

/-- Source `replace_zeros` inside `normalize`: `np.where(a > 0., a, 1.)`,
applied to the vector of row sums. -/
def replace_zeros (s : ℚ) : ℚ := if 0 < s then s else 1

/-- Source `normalize(a)`: `a / replace_zeros(a.sum(-1, keepdims=True))`,
i.e. every row is divided elementwise by its own sum, with a non-positive
row sum replaced by `1` before dividing. -/
def normalize (a : List (List ℚ)) : List (List ℚ) :=
  a.map fun row => row.map fun x => x / replace_zeros row.sum

/-- An update map witnessing that `same` is only a tolerance: it moves `0`
to a point within tolerance of `0`, but moves that point far away. -/
def drift (v : NVal) : NVal :=
  match v with
  | .arr [q] => if q = 0 then .arr [1 / 200000000] else .arr [5]
  | _ => .arr [0]

/-! ### The error behaviour of `EM`: Python exceptions and free names

The bodies of `log_likelihoods` and `M_step` refer to the free names
`statistic` and `max_likelihood`.  Python resolves a free name against the
enclosing function scope (`EM`), then the module globals, then builtins;
the two names are bound in none of these, so evaluating them raises
`NameError`.  The lists below are exactly the names bound at module level
in the source file and the names bound in `EM`'s scope. -/

inductive PyErr where
  | nameError (n : String)
  | notImplementedError
  | linAlgError
  | valueError
  | typeError
deriving DecidableEq

/-- Names bound at module level in the source: the `__future__` import,
the imports `abc`, `np`, `npr`, `logsumexp`, `grad`, and the module's own
definitions. -/
def module_globals : List String :=
  ["division", "abc", "np", "npr", "logsumexp", "grad",
   "fixed_point", "same", "normalize", "inner",
   "ExpFam", "Gaussian", "NormalInverseWishart", "EM"]

/-- Names bound inside `EM`'s scope: its parameters and its nested
function definitions. -/
def EM_locals : List String :=
  ["init_params", "data", "obs",
   "EM_update", "E_step", "M_step", "hmm_log_partition_function",
   "log_likelihoods"]

/-- Resolution of a free name appearing inside one of `EM`'s nested
functions: found in `EM`'s scope or the module globals (none of the free
names at issue is a Python builtin), otherwise a `NameError`. -/
def lookup_name (n : String) : Except PyErr Unit :=
  if n ∈ EM_locals ++ module_globals then .ok () else .error (.nameError n)

/-- A parameter triple `(pi, A, thetas)` as handed to `EM`; only the
emission parameters `thetas` feed the collaborator calls that can raise. -/
def Params (Θ : Type) : Type := List ℚ × List (List ℚ) × List Θ

/-- The exponential-family collaborator interface consumed by `EM`
(attribute lookup of `eta` and `logZ` on the `obs` argument), with each
call allowed to raise. -/
structure ObsFam (Θ H V : Type) where
  eta : Θ → Except PyErr H
  logZ : H → Except PyErr V

/-- Source `obs_natparam(theta)` inside `E_step`:
`obs.eta(theta) + (-obs.logZ(obs.eta(theta)),)`.  Python evaluates
`obs.eta(theta)`, then `obs.eta(theta)` again, then `obs.logZ` on the
second result; an exception in any of them propagates. -/
def obs_natparam {Θ H V : Type} [Neg V] (obs : ObsFam Θ H V) (theta : Θ) :
    Except PyErr (H × V) := do
  let e1 ← obs.eta theta
  let e2 ← obs.eta theta
  let z ← obs.logZ e2
  pure (e1, -z)

/-- Evaluation trace of `hmm_log_partition_function` as invoked (under
`grad`) by `E_step`: with nonempty data the first loop iteration evaluates
`log_likelihoods(y, etas)`, whose body `statistic(y) + (1,)` begins by
resolving the free name `statistic`; with empty data the loop body never
runs and no lookup of `statistic` happens.  The numeric value of the
recursion is irrelevant to the error structure and is untracked here (the
numeric recursion itself is embedded below over `ℝ`). -/
def hmm_lpf_trace {Y : Type} (data : List Y) : Except PyErr Unit :=
  match data with
  | [] => .ok ()
  | _ :: _ => do
    let _ ← lookup_name "statistic"
    .ok ()

/-- Python 2 `map(f, xs)` with a fallible `f`: elements are evaluated
eagerly from the left and the first exception propagates. -/
def mapE {α β : Type} (f : α → Except PyErr β) : List α → Except PyErr (List β)
  | [] => .ok []
  | x :: xs => do
    let y ← f x
    let ys ← mapE f xs
    pure (y :: ys)

/-- Source `E_step(params, data)`: builds `natural_params`, evaluating
`obs_natparam` eagerly on every `theta` (Python 2 `map` is eager), then
evaluates `grad(hmm_log_partition_function)(natural_params, data)`.
`grad` comes from the external autograd library: it evaluates the traced
function once and an exception there propagates; its numeric output is
modelled by the oracle value `g`, so the theorems below hold whatever
gradient the library would produce. -/
def E_step {Θ H V Y G : Type} [Neg V] (obs : ObsFam Θ H V) (g : G)
    (params : Params Θ) (data : List Y) : Except PyErr G := do
  let _ ← mapE (obs_natparam obs) params.2.2
  let _ ← hmm_lpf_trace data
  pure g

/-- Source `M_step(expected_stats)`: the `normalize` calls are pure; then
`map(max_likelihood, E_obs_statistics)` resolves the free name
`max_likelihood`, which is bound nowhere in the program.  The oracle `ml`
stands for whatever the undefined function would compute, so the theorems
hold for every possible meaning of it. -/
def M_step {Θ G : Type} (ml : G → Params Θ) (stats : G) : Except PyErr (Params Θ) := do
  let _ ← lookup_name "max_likelihood"
  pure (ml stats)

/-- Source `EM_update(params) = M_step(E_step(params, data))`. -/
def EM_update {Θ H V Y G : Type} [Neg V] (obs : ObsFam Θ H V) (g : G)
    (ml : G → Params Θ) (data : List Y) (params : Params Θ) : Except PyErr (Params Θ) := do
  let s ← E_step obs g params data
  M_step ml s

/-- The `fixed_point` loop with an update that may raise: an exception
from `f` propagates out of the loop.  Fuel bounds the iteration count; at
fuel 0 the pending update's result is returned.  The claims below concern
runs whose very first update raises, where the fuel never matters. -/
def except_fixed_point {P : Type} : ℕ → (P → Except PyErr P) → (P → P → Bool) → P → Except PyErr P
  | 0, f, _, x0 => f x0
  | fuel + 1, f, sm, x0 => do
    let x1 ← f x0
    if sm x0 x1 then pure x1 else except_fixed_point fuel f sm x1

/-- Source `EM(init_params, data, obs) = fixed_point(EM_update, init_params)`.
The equality test on parameter tuples is abstracted as `sm` (its numeric
behaviour is embedded separately as `same`). -/
def EM {Θ H V Y G : Type} [Neg V] (fuel : ℕ) (obs : ObsFam Θ H V) (g : G)
    (ml : G → Params Θ) (sm : Params Θ → Params Θ → Bool)
    (init_params : Params Θ) (data : List Y) : Except PyErr (Params Θ) :=
  except_fixed_point fuel (EM_update obs g ml data) sm init_params

/-- An argument handed to a method accessed on the
`NormalInverseWishart` class: either an instance of that class (the class
declares no fields, so the instance is opaque) or a plain tuple/array
value, modelled in one dimension over rationals. -/
inductive NIWArg where
  | inst
  | arr (entries : List ℚ)

/-- Python 2 unbound-method binding: unlike `Gaussian`'s methods, the
methods of `NormalInverseWishart` are declared without `@staticmethod`, so
`NormalInverseWishart.m(arg)` is an unbound-method call which first checks
that `arg` is an instance of the class and raises `TypeError` otherwise;
only when the check passes does the body run, with the instance bound to
the body's first parameter. -/
def niwBind {α : Type} (body : NIWArg → Except PyErr α) (arg : NIWArg) : Except PyErr α :=
  match arg with
  | .inst => body .inst
  | .arr _ => .error .typeError

/-- Body of `NormalInverseWishart.eta(theta)`: `S, mu, nu, kappa = theta`
then `np.array([S + np.outer(mu, mu) / kappa, mu / kappa, 1. / kappa, nu])`
(in one dimension `outer(mu, mu)` is `mu * mu`).  Unpacking a tuple of the
wrong arity raises the unpack error; unpacking an instance of the class —
the only value the binding check lets through — raises `TypeError`, since
the instance is not iterable. -/
def NormalInverseWishart.etaBody (theta : NIWArg) : Except PyErr (List ℚ) :=
  match theta with
  | .arr [S, mu, nu, kappa] => .ok [S + mu * mu / kappa, mu / kappa, 1 / kappa, nu]
  | .arr _ => .error .valueError
  | .inst => .error .typeError

/-- Source `NormalInverseWishart.eta(theta)` as actually callable:
unbound-method binding followed by the body. -/
def NormalInverseWishart.eta : NIWArg → Except PyErr (List ℚ) :=
  niwBind NormalInverseWishart.etaBody

/-- Body of `NormalInverseWishart.logZ(eta)`: `A, b, c, d = eta` followed
by `raise NotImplementedError`.  On a 4-component tuple the unpacking
succeeds and the body raises `NotImplementedError`; on any other tuple the
unpacking raises; on an instance of the class — the only value the binding
check lets through — the unpacking raises `TypeError`.  No branch returns
a value. -/
def NormalInverseWishart.logZBody (eta : NIWArg) : Except PyErr ℚ :=
  match eta with
  | .arr [_, _, _, _] => .error .notImplementedError
  | .arr _ => .error .valueError
  | .inst => .error .typeError

/-- Source `NormalInverseWishart.logZ(eta)` as actually callable:
unbound-method binding followed by the body. -/
def NormalInverseWishart.logZ : NIWArg → Except PyErr ℚ :=
  niwBind NormalInverseWishart.logZBody

/-- The `NormalInverseWishart` class as an `EM` collaborator (the source's
`EM(init_params, data, obs)` receives the class itself, so each `obs.m`
access yields an unbound method). -/
def niwObs : ObsFam NIWArg (List ℚ) ℚ :=
  ⟨NormalInverseWishart.eta, fun h => NormalInverseWishart.logZ (NIWArg.arr h)⟩

/-! ### The Gaussian family over `D`-dimensional real vectors and matrices -/

/-- Source `Gaussian.eta(theta)`: `mu, Sigma = theta; J = np.linalg.inv(Sigma);
h = np.dot(J, mu); return -1./2*J, h`.  `np.linalg.inv` raises `LinAlgError`
exactly on a singular matrix, modelled as `none`. -/
noncomputable def Gaussian.eta {D : ℕ} (theta : (Fin D → ℝ) × Matrix (Fin D) (Fin D) ℝ) :
    Option (Matrix (Fin D) (Fin D) ℝ × (Fin D → ℝ)) :=
  if theta.2.det = 0 then none
  else some ((-1 / 2 : ℝ) • theta.2⁻¹, theta.2⁻¹.mulVec theta.1)

/-- Source `Gaussian.logZ(eta)`: `J, h = -2*eta[0], eta[1]; return
-1./2 * np.dot(h, np.linalg.solve(J, h)) + 1./2 * np.log(np.linalg.det(J))`.
`np.linalg.solve(J, h)` is `J⁻¹ h` (it raises on singular `J`; the claims
evaluate it only where `J` is invertible, where Mathlib's inverse agrees). -/
noncomputable def Gaussian.logZ {D : ℕ} (eta : Matrix (Fin D) (Fin D) ℝ × (Fin D → ℝ)) : ℝ :=
  -1 / 2 * (Matrix.dotProduct eta.2 (((-2 : ℝ) • eta.1)⁻¹.mulVec eta.2))
    + 1 / 2 * Real.log ((-2 : ℝ) • eta.1).det

/-- Modelled from the spec: the analytic Gaussian log partition value
`1/2 log|2π Sigma| + 1/2 mu^T Sigma⁻¹ mu` of the closed-form check in the
spec's testable properties; it is not computed anywhere in the source. -/
noncomputable def gaussianAnalyticLogZ {D : ℕ} (mu : Fin D → ℝ)
    (Sigma : Matrix (Fin D) (Fin D) ℝ) : ℝ :=
  1 / 2 * Real.log (((2 * Real.pi) • Sigma).det) + 1 / 2 * (Matrix.dotProduct mu (Sigma⁻¹.mulVec mu))

/-! ### The log-space forward algorithm over the reals -/

/-- Source `inner(a, b)`: `sum(map(contract, a, b))` with
`contract(x, y) = np.sum(x * y)` — tuples of arrays are contracted
componentwise and the component contractions summed.  A tuple of arrays is
modelled as a list of flat lists of reals (a Python scalar is a one-entry
list); Python 2 `map` over two tuples requires equal lengths (the source
raises otherwise), modelled by zipping. -/
def contract (x y : List ℝ) : ℝ := ((x.zip y).map fun q => q.1 * q.2).sum

def inner (a b : List (List ℝ)) : ℝ :=
  ((a.zip b).map fun p => contract p.1 p.2).sum

/-- The largest entry of a list of reals (`np.max`); `0` on the empty
array, which numpy rejects. -/
def listMax : List ℝ → ℝ
  | [] => 0
  | x :: xs => xs.foldl max x

/-- `logsumexp` from `autograd.scipy.misc` as the source uses it: the
numerically stabilised form `log(sum(exp(a - max(a)))) + max(a)`. -/
noncomputable def logsumexp (a : List ℝ) : ℝ :=
  Real.log ((a.map fun x => Real.exp (x - listMax a)).sum) + listMax a

/-- Source `log_likelihoods(y, etas)`: `stat = statistic(y) + (1,)` and
`np.array(map(lambda eta: inner(eta, stat), etas))`.  The free name
`statistic` is passed explicitly as `stat` (it is unbound in the source;
see the claims on `EM`'s error behaviour); appending the scalar `1` is
appending the one-entry component `[1]`. -/
def log_likelihoods {Y : Type} (stat : Y → List (List ℝ)) (y : Y)
    (etas : List (List (List ℝ))) : List ℝ :=
  etas.map fun eta => inner eta (stat y ++ [[1]])

/-- One iteration of the forward loop:
`logsumexp(log_alpha[:, None] + log_A, axis=0) + ll`; entry `j`
marginalises the source state `i` of `log_alpha[i] + log_A[i, j]` over the
`N` states. -/
noncomputable def hmm_step (N : ℕ) (log_A : List (List ℝ)) (la ll : List ℝ) : List ℝ :=
  (List.range N).map fun j =>
    logsumexp ((List.range N).map fun i => la.getD i 0 + (log_A.getD i []).getD j 0)
      + ll.getD j 0

/-- Source `hmm_log_partition_function(natural_params, data)`:
`log_alpha = log_pi`; for each `y` in order,
`log_alpha = logsumexp(log_alpha[:, None] + log_A, axis=0) + log_likelihoods(y, etas)`;
return `logsumexp(log_alpha)`.  The number `N` of states is the length of
`log_pi` (numpy broadcasting forces every shape to share it). -/
noncomputable def hmm_log_partition_function {Y : Type} (stat : Y → List (List ℝ))
    (natural_params : List ℝ × List (List ℝ) × List (List (List ℝ)))
    (data : List Y) : ℝ :=
  logsumexp (data.foldl
    (fun la y => hmm_step natural_params.1.length natural_params.2.1 la
      (log_likelihoods stat y natural_params.2.2))
    natural_params.1)

/-- All length-`T` sequences over the `N` hidden states: the `N ^ T`
hidden-state paths of the brute-force sum. -/
def allPaths (N : ℕ) : ℕ → List (List ℕ)
  | 0 => [[]]
  | T + 1 => ((List.range N).map fun s => (allPaths N T).map fun p => s :: p).flatten

/-- The product, along a hidden path, of each step's transition weight
`exp(log_A[prev, j])` and emission weight `exp(ll_t[j])`, with `lls` the
per-timestep emission log-weight vectors, walked in lockstep with the
path. -/
noncomputable def pathWeight (log_A : List (List ℝ)) : ℕ → List (List ℝ) → List ℕ → ℝ
  | _, [], _ => 1
  | _, _ :: _, [] => 1
  | prev, ll :: lls, j :: p =>
      Real.exp ((log_A.getD prev []).getD j 0) * Real.exp (ll.getD j 0)
        * pathWeight log_A j lls p

/-- The joint weight of the hidden path `p` (the states at the observation
times) together with the data.  The initial state `s0` carries weight
`exp(log_pi[s0])` and is marginalised, since the source's recursion applies
one transition before the first emission. -/
noncomputable def pathJoint (log_pi : List ℝ) (log_A : List (List ℝ))
    (lls : List (List ℝ)) (p : List ℕ) : ℝ :=
  ((List.range log_pi.length).map fun s0 =>
    Real.exp (log_pi.getD s0 0) * pathWeight log_A s0 lls p).sum

/-- The brute-force partition function: the sum, over all hidden-state
paths, of the joint weight of the path and the data. -/
noncomputable def bruteZ (log_pi : List ℝ) (log_A : List (List ℝ))
    (lls : List (List ℝ)) : ℝ :=
  ((allPaths log_pi.length lls.length).map (pathJoint log_pi log_A lls)).sum

/-- Per-timestep emission log-weights exactly as the claim words them:
`<etas[k] ++ (1,), statistic(y_t) ++ (1,)>`. -/
def claim_lls {Y : Type} (stat : Y → List (List ℝ)) (etas : List (List (List ℝ)))
    (data : List Y) : List (List ℝ) :=
  data.map fun y => etas.map fun eta => inner (eta ++ [[1]]) (stat y ++ [[1]])

/-- Per-timestep emission log-weights as the source computes them via
`log_likelihoods`. -/
def code_lls {Y : Type} (stat : Y → List (List ℝ)) (etas : List (List (List ℝ)))
    (data : List Y) : List (List ℝ) :=
  data.map fun y => log_likelihoods stat y etas

/-- The brute-force value of the claim: the log argument summed over all
`N ^ T` hidden-state paths with the claim's emission weights. -/
noncomputable def bruteForce {Y : Type} (stat : Y → List (List ℝ))
    (natural_params : List ℝ × List (List ℝ) × List (List (List ℝ)))
    (data : List Y) : ℝ :=
  bruteZ natural_params.1 natural_params.2.1 (claim_lls stat natural_params.2.2 data)

/-- Modelled from the spec: the posterior probability that the hidden
state at observation time `t` equals `k`, defined as the brute-force path
marginal.  The spec checks the gradient against an independently
implemented forward-backward posterior; no posterior code exists in the
source, so the mathematical definition is used. -/
noncomputable def posterior (log_pi : List ℝ) (log_A : List (List ℝ))
    (lls : List (List ℝ)) (t k : ℕ) : ℝ :=
  (((allPaths log_pi.length lls.length).filter fun p => p.getD t 0 = k).map
    (pathJoint log_pi log_A lls)).sum / bruteZ log_pi log_A lls

/-- The `E_init` component of the expected statistics: the posterior mass
of initial state `i`, as a brute-force path sum. -/
noncomputable def E_init_component (log_pi : List ℝ) (log_A : List (List ℝ))
    (lls : List (List ℝ)) (i : ℕ) : ℝ :=
  (Real.exp (log_pi.getD i 0) *
    ((allPaths log_pi.length lls.length).map fun p => pathWeight log_A i lls p).sum)
    / bruteZ log_pi log_A lls

/-- Overwrite entry `i` of component `c` of a natural-parameter tuple. -/
def setEntry (e : List (List ℝ)) (c i : ℕ) (x : ℝ) : List (List ℝ) :=
  e.set c ((e.getD c []).set i x)

/-- Overwrite one scalar coordinate of `etas[k]`. -/
def setEta (etas : List (List (List ℝ))) (k c i : ℕ) (x : ℝ) : List (List (List ℝ)) :=
  etas.set k (setEntry (etas.getD k []) c i x)

/-- Entry `(c, i)` of the augmented statistic `statistic(y) ++ (1,)`. -/
def augEntry {Y : Type} (stat : Y → List (List ℝ)) (c i : ℕ) (y : Y) : ℝ :=
  ((stat y ++ [[1]]).getD c []).getD i 0

/-- The sensitivity of a hidden path to the scalar coordinate `(c, i)` of
`etas[k]`: the sum, over the timesteps at which the path visits state `k`,
of the matching augmented-statistic entry; walked in lockstep with the
data. -/
noncomputable def bSum {Y : Type} (stat : Y → List (List ℝ)) (c i k : ℕ) :
    List Y → List ℕ → ℝ
  | [], _ => 0
  | _ :: _, [] => 0
  | y :: ys, j :: p => (if j = k then augEntry stat c i y else 0) + bSum stat c i k ys p

/-! ### Theorems -/

/-! #### Claim C4: rows of `normalize` -/

theorem normalize_getD (a : List (List ℚ)) (i : ℕ) (h : i < a.length) :
    (normalize a).getD i [] = (a.getD i []).map fun x => x / replace_zeros (a.getD i []).sum := by
  unfold normalize
  rw [List.getD_eq_getElem _ _ (by simpa using h), List.getD_eq_getElem _ _ h]
  simp

theorem sum_map_div (l : List ℚ) (s : ℚ) : (l.map fun x => x / s).sum = l.sum / s := by
  induction l with
  | nil => simp
  | cons x xs ih => simp [ih, add_div]

/-- C4 (corrected): a row of `normalize` whose input row sum is positive is
the row divided by that sum, and then sums to 1; a row whose input row sum
is non-positive is divided by `1`, i.e. returned unchanged (not replaced by
a uniform distribution). -/
theorem normalize_rows (a : List (List ℚ)) (i : ℕ) (h : i < a.length) :
    (0 < (a.getD i []).sum → ((normalize a).getD i []).sum = 1) ∧
      ((a.getD i []).sum ≤ 0 → (normalize a).getD i [] = a.getD i []) := by
  constructor
  · intro hpos
    rw [normalize_getD a i h, sum_map_div]
    rw [replace_zeros, if_pos hpos]
    exact div_self (ne_of_gt hpos)
  · intro hnp
    rw [normalize_getD a i h, replace_zeros, if_neg (by exact not_lt.mpr hnp)]
    simp

/-- C4 witness: on `[[2, 2]]` the row sum is positive and the normalized row
sums to 1. -/
theorem normalize_rows_witness : ((normalize [[2, 2]]).getD 0 []).sum = 1 :=
  (normalize_rows [[2, 2]] 0 (by norm_num)).1 (by norm_num)

/-- C4 counterexample: the row `[0, 0]` has non-positive sum, yet
`normalize` returns it unchanged rather than as the uniform distribution
`[1/2, 1/2]` over its two entries. -/
theorem normalize_not_uniform :
    ([(0 : ℚ), 0].sum ≤ 0) ∧ normalize [[0, 0]] = [[0, 0]] ∧
      normalize [[0, 0]] ≠ [[1/2, 1/2]] := by
  refine ⟨by norm_num, by norm_num [normalize, replace_zeros], ?_⟩
  norm_num [normalize, replace_zeros]

/-! #### Claim C8: what `fixed_point` guarantees about its return value -/

/-- C8 (amended): whenever `fixed_point` terminates with result `r`, there
is a previous iterate `x` with `r = f x` and `same x r`; the source's loop
tests `same` between consecutive iterates only, which is what holds of the
returned tuple. -/
theorem fixed_point_spec (fuel : ℕ) (f : NVal → NVal) (x0 r : NVal)
    (h : fixed_point fuel f x0 = some r) : ∃ x, r = f x ∧ same x r = true := by
  rw [fixed_point] at h
  induction fuel generalizing x0 with
  | zero => exact absurd h (by simp [fixed_point.fixed_point_go])
  | succ n ih =>
    rw [fixed_point.fixed_point_go] at h
    by_cases hs : same x0 (f x0) = true
    · rw [if_pos hs] at h
      exact ⟨x0, by simpa using h.symm, by rw [← Option.some_inj.mp h]; exact hs⟩
    · rw [if_neg hs] at h
      exact ih (f x0) h

/-- C8 witness: `fixed_point` applied to the identity update terminates at
once, and the returned value is the image of an iterate `same` to it. -/
theorem fixed_point_spec_witness :
    ∃ x, NVal.arr [0] = id x ∧ same x (NVal.arr [0]) = true :=
  fixed_point_spec 1 id (NVal.arr [0]) (NVal.arr [0]) (by
    simp [fixed_point, fixed_point.fixed_point_go, same, allclose, atol, rtol])

/-- C8 counterexample: the claim as stated — that the value `r` returned by
the fixed-point loop satisfies `same (f r) r` — fails: starting `drift`
from `0`, the loop stops at `r = [5e-9]` (within tolerance of `0`), yet
`drift r = [5]` is not `same` as `r`. -/
theorem fixed_point_not_idempotent :
    fixed_point 3 drift (NVal.arr [0]) = some (drift (NVal.arr [0])) ∧
      same (drift (drift (NVal.arr [0]))) (drift (NVal.arr [0])) = false := by
  have h1 : drift (NVal.arr [0]) = NVal.arr [1 / 200000000] := by norm_num [drift]
  have h2 : drift (NVal.arr [1 / 200000000]) = NVal.arr [5] := by norm_num [drift]
  have habs : |((200000000 : ℚ))⁻¹| = (200000000 : ℚ)⁻¹ := abs_of_nonneg (by norm_num)
  have h3 : same (NVal.arr [0]) (NVal.arr [1 / 200000000]) = true := by
    simp [same, allclose, atol, rtol, abs_le]
    rw [habs]
    norm_num
  have h4 : same (NVal.arr [5]) (NVal.arr [1 / 200000000]) = false := by
    simp [same, allclose, atol, rtol, lt_abs]
    left
    rw [habs]
    norm_num
  constructor
  · rw [fixed_point, h1, fixed_point.fixed_point_go, if_pos h3]
  · rw [h1, h2, h4]

/-! #### Claims C3 and C7: unbound names and the unimplemented family -/

theorem lookup_statistic : lookup_name "statistic" = .error (.nameError "statistic") := by
  rfl

theorem lookup_max_likelihood :
    lookup_name "max_likelihood" = .error (.nameError "max_likelihood") := by
  rfl

theorem ok_bind {α β : Type} (v : α) (f : α → Except PyErr β) :
    (Except.ok v >>= f) = f v := rfl

theorem error_bind {α β : Type} (e : PyErr) (f : α → Except PyErr β) :
    ((Except.error e : Except PyErr α) >>= f) = Except.error e := rfl

theorem mapE_ok {Θ H V : Type} [Neg V] (obs : ObsFam Θ H V) (ts : List Θ)
    (h : ∀ θ ∈ ts, ∃ v, obs_natparam obs θ = .ok v) :
    ∃ vs, mapE (obs_natparam obs) ts = .ok vs := by
  induction ts with
  | nil => exact ⟨[], rfl⟩
  | cons t ts ih =>
    obtain ⟨v, hv⟩ := h t (by simp)
    obtain ⟨vs, hvs⟩ := ih fun θ hθ => h θ (by simp [hθ])
    exact ⟨v :: vs, by simp [mapE, hv, hvs, ok_bind]⟩

/-- C3 (amended): for every collaborator whose `eta`/`logZ` succeed on the
initial emission parameters, `EM` raises a `NameError` on its very first
update and never returns: with nonempty data the first forward-recursion
step evaluates the unbound free name `statistic`; with empty data the
forward trace finishes without it and `M_step` then evaluates the unbound
free name `max_likelihood`. -/
theorem EM_raises_NameError {Θ H V Y G : Type} [Neg V] (fuel : ℕ)
    (obs : ObsFam Θ H V) (g : G) (ml : G → Params Θ)
    (sm : Params Θ → Params Θ → Bool) (pi : List ℚ) (A : List (List ℚ))
    (thetas : List Θ) (data : List Y)
    (h : ∀ θ ∈ thetas, ∃ v, obs_natparam obs θ = .ok v) :
    EM fuel obs g ml sm (pi, A, thetas) data =
      .error (.nameError (if data.isEmpty then "max_likelihood" else "statistic")) := by
  obtain ⟨vs, hvs⟩ := mapE_ok obs thetas h
  have hupd : EM_update obs g ml data (pi, A, thetas) =
      .error (.nameError (if data.isEmpty then "max_likelihood" else "statistic")) := by
    cases data with
    | nil =>
      simp [EM_update, E_step, M_step, hmm_lpf_trace, hvs, lookup_max_likelihood,
        ok_bind, error_bind]
    | cons y ys =>
      simp [EM_update, E_step, hmm_lpf_trace, hvs, lookup_statistic,
        ok_bind, error_bind]
  cases fuel with
  | zero => exact hupd
  | succ n =>
    rw [EM, except_fixed_point, hupd]
    rfl

/-- C3 witness for the amended claim: with the trivially succeeding
collaborator (identity `eta`, zero `logZ`), one emission parameter and one
observation, `EM` raises `NameError` on the unbound name `statistic`. -/
theorem EM_raises_NameError_witness :
    EM 1 (⟨fun θ => .ok θ, fun _ => .ok (0 : ℚ)⟩ : ObsFam ℚ ℚ ℚ) (0 : ℚ)
      (fun _ => (([], [], []) : Params ℚ)) (fun _ _ => true)
      ([], [], [0]) [(0 : ℚ)] = .error (.nameError "statistic") := by
  have := EM_raises_NameError (Θ := ℚ) (H := ℚ) (V := ℚ) (Y := ℚ) (G := ℚ)
    1 ⟨fun θ => .ok θ, fun _ => .ok 0⟩ 0 (fun _ => ([], [], []))
    (fun _ _ => true) [] [] [0] [0]
    (fun θ _ => ⟨(θ, 0), rfl⟩)
  simpa using this

/-- C3 counterexample to the claim as stated: with the
`NormalInverseWishart` collaborator, `EM` raises `TypeError` — the class's
methods lack `@staticmethod`, so `obs.eta(theta)` fails the Python 2
unbound-method binding check before any body runs — not a `NameError`, so
`EM` does not raise a `NameError` for every input triple. -/
theorem EM_niw_not_NameError :
    EM 0 niwObs () (fun _ => (([], [], []) : Params NIWArg)) (fun _ _ => true)
        ([], [], [NIWArg.arr [0, 0, 0, 1]]) ([] : List ℚ) = .error .typeError ∧
      ∀ n, EM 0 niwObs () (fun _ => (([], [], []) : Params NIWArg)) (fun _ _ => true)
        ([], [], [NIWArg.arr [0, 0, 0, 1]]) ([] : List ℚ) ≠ .error (.nameError n) := by
  have h : EM 0 niwObs () (fun _ => (([], [], []) : Params NIWArg)) (fun _ _ => true)
      ([], [], [NIWArg.arr [0, 0, 0, 1]]) ([] : List ℚ) = .error .typeError := rfl
  exact ⟨h, fun n hn => by rw [h] at hn; simp at hn⟩

/-- C7 (amended): `NormalInverseWishart.logZ` never returns a scalar
value, and every invocation raises `TypeError`: the methods of the class
lack `@staticmethod`, so under this module's Python 2 semantics the
unbound-method binding check rejects every non-instance argument, and for
an instance argument the body's unpacking `A, b, c, d = eta` rejects the
non-iterable instance; the `raise NotImplementedError` line is
unreachable. -/
theorem NIW_logZ_spec (eta : NIWArg) :
    (∀ r, NormalInverseWishart.logZ eta ≠ .ok r) ∧
      NormalInverseWishart.logZ eta = .error .typeError := by
  cases eta with
  | inst => exact ⟨fun r => by simp [NormalInverseWishart.logZ, niwBind,
      NormalInverseWishart.logZBody], rfl⟩
  | arr l => exact ⟨fun r => by simp [NormalInverseWishart.logZ, niwBind], rfl⟩

/-- C7 witness: on the 4-component argument `[0, 0, 0, 0]` — the shape the
claim is most favourable to — the call raises `TypeError`. -/
theorem NIW_logZ_spec_witness :
    NormalInverseWishart.logZ (NIWArg.arr [0, 0, 0, 0]) = .error .typeError :=
  (NIW_logZ_spec (NIWArg.arr [0, 0, 0, 0])).2

/-- C7 counterexample to the claim as stated: on the 4-component argument
`[0, 0, 0, 0]` the unbound-method binding check raises `TypeError` before
the body ever runs, so the error is not the unimplemented-capability
error. -/
theorem NIW_logZ_not_unimplemented :
    NormalInverseWishart.logZ (NIWArg.arr [0, 0, 0, 0]) = .error .typeError ∧
      NormalInverseWishart.logZ (NIWArg.arr [0, 0, 0, 0])
        ≠ .error .notImplementedError := by
  exact ⟨rfl, by simp [NormalInverseWishart.logZ, niwBind]⟩

/-! #### Claims C5 and C6: the Gaussian family -/

theorem gaussian_code_logZ {D : ℕ} (mu : Fin D → ℝ) (Sigma : Matrix (Fin D) (Fin D) ℝ)
    (h : Sigma.det ≠ 0) :
    (Gaussian.eta (mu, Sigma)).map Gaussian.logZ =
      some (-(1 / 2) * (Matrix.dotProduct mu (Sigma⁻¹.mulVec mu)) - 1 / 2 * Real.log Sigma.det) := by
  have hu : IsUnit Sigma.det := isUnit_iff_ne_zero.mpr h
  rw [Gaussian.eta]
  rw [if_neg (by simpa using h)]
  rw [Option.map_some']
  congr 1
  rw [Gaussian.logZ]
  have hJ : ((-2 : ℝ) • ((-1 / 2 : ℝ) • Sigma⁻¹)) = Sigma⁻¹ := by
    rw [smul_smul]
    norm_num
  simp only [hJ]
  rw [Matrix.nonsing_inv_nonsing_inv Sigma hu]
  rw [Matrix.mulVec_mulVec, Matrix.mul_nonsing_inv Sigma hu, Matrix.one_mulVec]
  rw [Matrix.dotProduct_comm]
  rw [Matrix.det_nonsing_inv, Ring.inverse_eq_inv, Real.log_inv]
  ring

/-- C5 (amended): at every invertible covariance,
`Gaussian.logZ(Gaussian.eta((mu, Sigma)))` equals
`-1/2 mu^T Sigma⁻¹ mu - 1/2 log|Sigma|`, the negation of the quadratic and
log-determinant terms of the analytic value, with no `2π` term. -/
theorem Gaussian_logZ_eta {D : ℕ} (mu : Fin D → ℝ) (Sigma : Matrix (Fin D) (Fin D) ℝ)
    (h : Sigma.det ≠ 0) :
    (Gaussian.eta (mu, Sigma)).map Gaussian.logZ =
      some (-(1 / 2) * (Matrix.dotProduct mu (Sigma⁻¹.mulVec mu)) - 1 / 2 * Real.log Sigma.det) :=
  gaussian_code_logZ mu Sigma h

/-- C5 witness: the amended identity at the standard normal in one
dimension. -/
theorem Gaussian_logZ_eta_witness :
    (Gaussian.eta ((0 : Fin 1 → ℝ), (1 : Matrix (Fin 1) (Fin 1) ℝ))).map Gaussian.logZ =
      some (-(1 / 2) * (Matrix.dotProduct (0 : Fin 1 → ℝ) ((1 : Matrix (Fin 1) (Fin 1) ℝ)⁻¹.mulVec 0))
        - 1 / 2 * Real.log (1 : Matrix (Fin 1) (Fin 1) ℝ).det) :=
  Gaussian_logZ_eta 0 1 (by simp)

/-- C5 counterexample: at `mu = 0`, `Sigma = 1` in one dimension the code
value is `0` while the analytic Gaussian log partition value is
`1/2 log(2π) ≠ 0`, so the claimed equality fails. -/
theorem Gaussian_logZ_not_analytic :
    (Gaussian.eta ((0 : Fin 1 → ℝ), (1 : Matrix (Fin 1) (Fin 1) ℝ))).map Gaussian.logZ =
        some 0 ∧
      gaussianAnalyticLogZ (0 : Fin 1 → ℝ) (1 : Matrix (Fin 1) (Fin 1) ℝ) ≠ 0 := by
  constructor
  · rw [gaussian_code_logZ (0 : Fin 1 → ℝ) 1 (by simp)]
    simp
  · rw [gaussianAnalyticLogZ]
    have hdet : (((2 : ℝ) * Real.pi) • (1 : Matrix (Fin 1) (Fin 1) ℝ)).det = 2 * Real.pi := by
      rw [Matrix.det_smul]
      simp
    rw [hdet]
    have hlog : 0 < Real.log (2 * Real.pi) :=
      Real.log_pos (by nlinarith [Real.pi_gt_three])
    have : Matrix.dotProduct (0 : Fin 1 → ℝ) ((1 : Matrix (Fin 1) (Fin 1) ℝ)⁻¹.mulVec 0) = 0 := by
      simp
    rw [this]
    positivity

/-- C6: `Gaussian.eta((mu, Sigma))` returns the natural parameter pair
`(-1/2 Sigma⁻¹, Sigma⁻¹ mu)` when `Sigma` is invertible, and raises the
singular-covariance error (returns no value) exactly when `Sigma` is not
invertible. -/
theorem Gaussian_eta_spec {D : ℕ} (mu : Fin D → ℝ) (Sigma : Matrix (Fin D) (Fin D) ℝ) :
    (IsUnit Sigma → Gaussian.eta (mu, Sigma) =
        some ((-1 / 2 : ℝ) • Sigma⁻¹, Sigma⁻¹.mulVec mu)) ∧
      (Gaussian.eta (mu, Sigma) = none ↔ ¬IsUnit Sigma) := by
  have hiff : IsUnit Sigma ↔ Sigma.det ≠ 0 := by
    rw [Matrix.isUnit_iff_isUnit_det, isUnit_iff_ne_zero]
  constructor
  · intro hu
    rw [Gaussian.eta, if_neg (by simpa using hiff.mp hu)]
  · rw [Gaussian.eta]
    by_cases hd : Sigma.det = 0
    · simp only [hd, if_pos]
      simp [hiff, hd]
    · rw [if_neg (by simpa using hd)]
      simp [hiff, hd]

/-- C6 witness: at the identity covariance in one dimension, `eta` returns
the pair, and at the zero covariance it returns no value. -/
theorem Gaussian_eta_spec_witness :
    Gaussian.eta ((0 : Fin 1 → ℝ), (1 : Matrix (Fin 1) (Fin 1) ℝ)) =
        some ((-1 / 2 : ℝ) • (1 : Matrix (Fin 1) (Fin 1) ℝ)⁻¹,
          (1 : Matrix (Fin 1) (Fin 1) ℝ)⁻¹.mulVec 0) :=
  (Gaussian_eta_spec 0 1).1 isUnit_one

/-! #### Claim C1: the forward recursion equals the brute-force path sum -/

theorem sum_map_add {α : Type} (l : List α) (f g : α → ℝ) :
    (l.map fun x => f x + g x).sum = (l.map f).sum + (l.map g).sum := by
  induction l with
  | nil => simp
  | cons a l ih =>
    simp only [List.map_cons, List.sum_cons]
    rw [ih]
    ring

theorem sum_map_sum_comm {α β : Type} (l1 : List α) (l2 : List β) (f : α → β → ℝ) :
    (l1.map fun a => (l2.map fun b => f a b).sum).sum
      = (l2.map fun b => (l1.map fun a => f a b).sum).sum := by
  induction l1 with
  | nil => simp
  | cons a l ih =>
    simp only [List.map_cons, List.sum_cons]
    rw [ih, ← sum_map_add]

theorem exp_logsumexp (l : List ℝ) (h : l ≠ []) :
    Real.exp (logsumexp l) = (l.map Real.exp).sum := by
  have hpos : 0 < (l.map fun x => Real.exp (x - listMax l)).sum := by
    apply List.sum_pos
    · intro x hx
      obtain ⟨y, _, rfl⟩ := List.mem_map.mp hx
      exact Real.exp_pos _
    · simpa using h
  rw [logsumexp, Real.exp_add, Real.exp_log hpos, ← List.sum_map_mul_right]
  congr 1
  apply List.map_congr_left
  intro x _
  rw [← Real.exp_add, sub_add_cancel]

theorem logsumexp_eq_log (l : List ℝ) (h : l ≠ []) :
    logsumexp l = Real.log ((l.map Real.exp).sum) := by
  rw [← exp_logsumexp l h, Real.log_exp]

theorem sum_range_getD (l : List ℝ) (f : ℝ → ℝ) :
    ((List.range l.length).map fun i => f (l.getD i 0)).sum = (l.map f).sum := by
  induction l with
  | nil => simp
  | cons a l ih =>
    rw [List.length_cons, List.range_succ_eq_map, List.map_cons, List.sum_cons, List.map_map]
    simp only [Function.comp_def, Nat.succ_eq_add_one, List.getD_cons_succ, List.getD_cons_zero]
    rw [ih, List.map_cons, List.sum_cons]

theorem range_map_ne_nil {N : ℕ} (hN : 0 < N) (f : ℕ → ℝ) : (List.range N).map f ≠ [] := by
  intro h
  have h2 := congrArg List.length h
  simp at h2
  omega

theorem allPaths_length (N T : ℕ) : (allPaths N T).length = N ^ T := by
  induction T with
  | zero => rfl
  | succ T ih =>
    rw [allPaths, List.length_flatten, List.map_map]
    simp only [Function.comp_def, List.length_map]
    rw [List.map_const', List.sum_replicate, List.length_range, smul_eq_mul, ih, pow_succ]
    ring

theorem zip_append_of_le {α β : Type} (a : List α) (x : List α) (b : List β)
    (h : b.length ≤ a.length) : (a ++ x).zip b = a.zip b := by
  induction a generalizing b with
  | nil =>
    have hb : b = [] := List.eq_nil_of_length_eq_zero (Nat.le_zero.mp (by simpa using h))
    subst hb
    simp
  | cons a0 as ih =>
    cases b with
    | nil => simp
    | cons b0 bs =>
      simp only [List.cons_append, List.zip_cons_cons]
      rw [ih bs (by simpa using h)]

theorem inner_append_right (a x b : List (List ℝ))
    (h : b.length ≤ a.length) : inner (a ++ x) b = inner a b := by
  rw [inner, inner, zip_append_of_le a x b h]

theorem claim_lls_eq_code {Y : Type} (stat : Y → List (List ℝ))
    (etas : List (List (List ℝ))) (data : List Y)
    (hshape : ∀ y ∈ data, ∀ eta ∈ etas, eta.length = (stat y).length + 1) :
    claim_lls stat etas data = code_lls stat etas data := by
  rw [claim_lls, code_lls]
  apply List.map_congr_left
  intro y hy
  rw [log_likelihoods]
  apply List.map_congr_left
  intro eta he
  exact inner_append_right eta [[1]] (stat y ++ [[1]])
    (by simp [List.length_append, hshape y hy eta he])

theorem foldl_hmm_step_length (N : ℕ) (log_A : List (List ℝ)) (lls : List (List ℝ))
    (la : List ℝ) (h : la.length = N) : (lls.foldl (hmm_step N log_A) la).length = N := by
  induction lls generalizing la with
  | nil => simpa using h
  | cons ll lls ih =>
    rw [List.foldl_cons]
    exact ih _ (by simp [hmm_step])

theorem hmm_step_term (N : ℕ) (hN : 0 < N) (log_A : List (List ℝ)) (la ll : List ℝ)
    (lls : List (List ℝ)) (p : List ℕ) (j : ℕ) (hjN : j < N) :
    Real.exp ((hmm_step N log_A la ll).getD j 0) * pathWeight log_A j lls p
      = ((List.range N).map fun s0 =>
          Real.exp (la.getD s0 0) * pathWeight log_A s0 (ll :: lls) (j :: p)).sum := by
  have hla : (hmm_step N log_A la ll).getD j 0
      = logsumexp ((List.range N).map fun i => la.getD i 0 + (log_A.getD i []).getD j 0)
        + ll.getD j 0 := by
    rw [hmm_step, List.getD_eq_getElem _ _ (by simpa using hjN), List.getElem_map,
      List.getElem_range]
  rw [hla, Real.exp_add, exp_logsumexp _ (range_map_ne_nil hN _)]
  rw [List.map_map]
  simp only [Function.comp_def]
  rw [show ((List.range N).map fun i =>
        Real.exp (la.getD i 0 + (log_A.getD i []).getD j 0))
      = ((List.range N).map fun i =>
        Real.exp (la.getD i 0) * Real.exp ((log_A.getD i []).getD j 0)) from
    List.map_congr_left fun i _ => Real.exp_add _ _]
  rw [show ((List.range N).map fun s0 =>
        Real.exp (la.getD s0 0) * pathWeight log_A s0 (ll :: lls) (j :: p))
      = ((List.range N).map fun s0 =>
        (Real.exp (la.getD s0 0) * Real.exp ((log_A.getD s0 []).getD j 0))
          * (Real.exp (ll.getD j 0) * pathWeight log_A j lls p)) from
    List.map_congr_left fun s0 _ => by rw [pathWeight]; ring]
  rw [List.sum_map_mul_right]
  ring

theorem forward_eq_paths (N : ℕ) (hN : 0 < N) (log_A : List (List ℝ)) :
    ∀ (lls : List (List ℝ)) (la : List ℝ), la.length = N →
      ((lls.foldl (hmm_step N log_A) la).map Real.exp).sum =
        ((allPaths N lls.length).map fun p =>
          ((List.range N).map fun s0 =>
            Real.exp (la.getD s0 0) * pathWeight log_A s0 lls p).sum).sum := by
  intro lls
  induction lls with
  | nil =>
    intro la hla
    subst hla
    simp only [List.foldl_nil, List.length_nil]
    rw [show allPaths la.length 0 = [[]] from rfl]
    rw [List.map_cons, List.map_nil, List.sum_cons, List.sum_nil, add_zero]
    rw [← sum_range_getD la Real.exp]
    congr 1
    apply List.map_congr_left
    intro i _
    rw [show pathWeight log_A i [] [] = 1 from rfl, mul_one]
  | cons ll lls ih =>
    intro la hla
    rw [List.foldl_cons]
    rw [ih (hmm_step N log_A la ll) (by simp [hmm_step])]
    rw [show ((allPaths N lls.length).map fun p =>
          ((List.range N).map fun j =>
            Real.exp ((hmm_step N log_A la ll).getD j 0) * pathWeight log_A j lls p).sum)
        = ((allPaths N lls.length).map fun p =>
          ((List.range N).map fun j =>
            ((List.range N).map fun s0 =>
              Real.exp (la.getD s0 0) * pathWeight log_A s0 (ll :: lls) (j :: p)).sum).sum) from
      List.map_congr_left fun p _ => by
        congr 1
        exact List.map_congr_left fun j hj =>
          hmm_step_term N hN log_A la ll lls p j (List.mem_range.mp hj)]
    rw [sum_map_sum_comm]
    rw [List.length_cons, allPaths, List.map_flatten, List.sum_flatten, List.map_map,
      List.map_map]
    congr 1
    apply List.map_congr_left
    intro j _
    simp only [Function.comp_def, List.map_map]

theorem hmm_eq_log_bruteZ {Y : Type} (stat : Y → List (List ℝ)) (log_pi : List ℝ)
    (log_A : List (List ℝ)) (etas : List (List (List ℝ))) (data : List Y)
    (hN : 0 < log_pi.length) :
    hmm_log_partition_function stat (log_pi, log_A, etas) data
      = Real.log (bruteZ log_pi log_A (code_lls stat etas data)) := by
  have hlen := foldl_hmm_step_length log_pi.length log_A (code_lls stat etas data) log_pi rfl
  have hne : (code_lls stat etas data).foldl (hmm_step log_pi.length log_A) log_pi ≠ [] := by
    intro hemp
    rw [hemp] at hlen
    simp at hlen
    omega
  rw [hmm_log_partition_function]
  rw [show (data.foldl
        (fun la y => hmm_step (log_pi, log_A, etas).1.length (log_pi, log_A, etas).2.1 la
          (log_likelihoods stat y (log_pi, log_A, etas).2.2))
        (log_pi, log_A, etas).1)
      = ((code_lls stat etas data).foldl (hmm_step log_pi.length log_A) log_pi) from
    (List.foldl_map _ _ data log_pi).symm]
  rw [logsumexp_eq_log _ hne]
  rw [forward_eq_paths log_pi.length hN log_A (code_lls stat etas data) log_pi rfl]
  rw [bruteZ]
  congr 1

/-- C1: for every natural-parameter triple and data sequence (with the
numpy shape constraints: at least one state, and each `etas[k]` one
component longer than the statistic), `hmm_log_partition_function` equals
the logarithm of the brute-force sum over all `N ^ T` hidden-state paths
of the joint weight of the path and the data, where each per-state
emission weight is `exp(<etas[k] ++ (1,), statistic(y_t) ++ (1,)>)`; and
there are exactly `N ^ T` such paths. -/
theorem hmm_log_partition_function_brute {Y : Type} (stat : Y → List (List ℝ))
    (log_pi : List ℝ) (log_A : List (List ℝ)) (etas : List (List (List ℝ)))
    (data : List Y) (hN : 0 < log_pi.length)
    (hshape : ∀ y ∈ data, ∀ eta ∈ etas, eta.length = (stat y).length + 1) :
    hmm_log_partition_function stat (log_pi, log_A, etas) data
        = Real.log (bruteForce stat (log_pi, log_A, etas) data) ∧
      (allPaths log_pi.length data.length).length = log_pi.length ^ data.length := by
  refine ⟨?_, allPaths_length _ _⟩
  rw [hmm_eq_log_bruteZ stat log_pi log_A etas data hN, bruteForce,
    claim_lls_eq_code stat etas data hshape]

/-- C1 witness: the identity at the one-state model with a single
observation carrying the empty statistic. -/
theorem hmm_log_partition_function_brute_witness :
    hmm_log_partition_function (fun _ : ℕ => ([] : List (List ℝ)))
        ([0], [[0]], [[[0]]]) [0]
        = Real.log (bruteForce (fun _ : ℕ => ([] : List (List ℝ)))
          ([0], [[0]], [[[0]]]) [0]) ∧
      (allPaths 1 1).length = 1 := by
  have h := hmm_log_partition_function_brute (fun _ : ℕ => ([] : List (List ℝ)))
    [0] [[0]] [[[0]]] [0] (by norm_num)
    (by
      intro y hy eta heta
      simp only [List.mem_singleton] at heta
      subst heta
      simp)
  simpa using h

/-! #### Claim C2: list and sum toolbox for the gradient identity -/

theorem getD_set_ne {α : Type} (l : List α) (k j : ℕ) (v d : α) (h : k ≠ j) :
    (l.set k v).getD j d = l.getD j d := by
  simp [List.getD_eq_getElem?_getD, List.getElem?_set_ne h]

theorem getD_set_self {α : Type} (l : List α) (k : ℕ) (v d : α) (hk : k < l.length) :
    (l.set k v).getD k d = v := by
  rw [List.getD_eq_getElem _ _ (by simpa using hk)]
  simp

theorem set_getD_self {α : Type} [Inhabited α] (l : List α) (i : ℕ) (d : α)
    (hi : i < l.length) : l.set i (l.getD i d) = l := by
  induction l generalizing i with
  | nil => simp at hi
  | cons a l ih =>
    cases i with
    | zero => simp
    | succ i =>
      show a :: l.set i ((a :: l).getD (i + 1) d) = a :: l
      rw [List.getD_cons_succ, ih i (by simpa using hi)]

theorem sum_map_div' {α K : Type} [DivisionRing K] (l : List α) (f : α → K) (s : K) :
    (l.map fun x => f x / s).sum = (l.map f).sum / s := by
  induction l with
  | nil => simp
  | cons x xs ih => simp [ih, add_div]

theorem sum_map_filter_ite {α : Type} (l : List α) (q : α → Bool) (f : α → ℝ) :
    (l.map fun x => if q x then f x else 0).sum = ((l.filter q).map f).sum := by
  induction l with
  | nil => rfl
  | cons x xs ih =>
    by_cases h : q x <;> simp [List.filter_cons, h, ih]

theorem sum_range_split (N j : ℕ) (hj : j < N) (f : ℕ → ℝ) :
    ((List.range N).map f).sum
      = f j + ((List.range N).map fun s => if s = j then 0 else f s).sum := by
  induction N with
  | zero => omega
  | succ N ih =>
    rw [List.range_succ, List.map_append, List.sum_append, List.map_append, List.sum_append]
    by_cases hjN : j = N
    · subst hjN
      rw [show ((List.range j).map fun s => if s = j then 0 else f s)
            = (List.range j).map f from
          List.map_congr_left fun s hs => by
            rw [if_neg (by have := List.mem_range.mp hs; omega)]]
      simp
      ring
    · rw [ih (by omega)]
      simp only [List.map_cons, List.map_nil, List.sum_cons, List.sum_nil, add_zero]
      rw [if_neg (show ¬N = j by omega)]
      ring

theorem contract_set (l m : List ℝ) (i : ℕ) (x : ℝ) (hi : i < l.length)
    (hlen : l.length = m.length) :
    contract (l.set i x) m = contract l m + (x - l.getD i 0) * m.getD i 0 := by
  induction i generalizing l m with
  | zero =>
    cases l with
    | nil => simp at hi
    | cons l0 ls =>
      cases m with
      | nil => simp at hlen
      | cons m0 ms =>
        simp only [List.set_cons_zero, contract, List.zip_cons_cons, List.map_cons,
          List.sum_cons, List.getD_cons_zero]
        ring
  | succ i ih =>
    cases l with
    | nil => simp at hi
    | cons l0 ls =>
      cases m with
      | nil => simp at hlen
      | cons m0 ms =>
        simp only [List.set_cons_succ, contract, List.zip_cons_cons, List.map_cons,
          List.sum_cons, List.getD_cons_succ]
        have := ih ls ms (by simpa using hi) (by simpa using hlen)
        rw [contract, contract] at this
        rw [this]
        ring

theorem inner_setEntry (e b : List (List ℝ)) (c i : ℕ) (x : ℝ)
    (hc : c < e.length) (hi : i < (e.getD c []).length)
    (hlen : b.map List.length = e.map List.length) :
    inner (setEntry e c i x) b
      = inner e b + (x - (e.getD c []).getD i 0) * ((b.getD c []).getD i 0) := by
  induction c generalizing e b with
  | zero =>
    cases e with
    | nil => simp at hc
    | cons e0 es =>
      cases b with
      | nil => simp at hlen
      | cons b0 bs =>
        simp only [List.map_cons, List.cons.injEq] at hlen
        simp only [setEntry, List.getD_cons_zero, List.set_cons_zero, inner,
          List.zip_cons_cons, List.map_cons, List.sum_cons]
        rw [show contract (e0.set i x) b0
            = contract e0 b0 + (x - e0.getD i 0) * b0.getD i 0 from
          contract_set e0 b0 i x (by simpa using hi) hlen.1.symm]
        ring
  | succ c ih =>
    cases e with
    | nil => simp at hc
    | cons e0 es =>
      cases b with
      | nil => simp at hlen
      | cons b0 bs =>
        simp only [List.map_cons, List.cons.injEq] at hlen
        simp only [setEntry, List.getD_cons_succ, List.set_cons_succ, inner,
          List.zip_cons_cons, List.map_cons, List.sum_cons]
        have := ih es bs (by simpa using hc) (by simpa using hi) hlen.2
        rw [setEntry, inner, inner] at this
        rw [this]
        ring

theorem pathWeight_pos (log_A : List (List ℝ)) :
    ∀ (lls : List (List ℝ)) (prev : ℕ) (p : List ℕ), 0 < pathWeight log_A prev lls p := by
  intro lls
  induction lls with
  | nil =>
    intro prev p
    simp [pathWeight]
  | cons ll lls ih =>
    intro prev p
    cases p with
    | nil => simp [pathWeight]
    | cons j p =>
      rw [pathWeight]
      exact mul_pos (mul_pos (Real.exp_pos _) (Real.exp_pos _)) (ih j p)

theorem pathJoint_pos (log_pi : List ℝ) (log_A : List (List ℝ)) (lls : List (List ℝ))
    (p : List ℕ) (hN : 0 < log_pi.length) : 0 < pathJoint log_pi log_A lls p := by
  apply List.sum_pos
  · intro x hx
    obtain ⟨s0, _, rfl⟩ := List.mem_map.mp hx
    exact mul_pos (Real.exp_pos _) (pathWeight_pos log_A lls s0 p)
  · exact range_map_ne_nil hN _

theorem allPaths_ne_nil (N T : ℕ) (hN : 0 < N) : allPaths N T ≠ [] := by
  intro h
  have h2 := congrArg List.length h
  rw [allPaths_length] at h2
  simp at h2
  have h3 : 0 < N ^ T := pow_pos hN T
  omega

theorem bruteZ_pos (log_pi : List ℝ) (log_A : List (List ℝ)) (lls : List (List ℝ))
    (hN : 0 < log_pi.length) : 0 < bruteZ log_pi log_A lls := by
  apply List.sum_pos
  · intro x hx
    obtain ⟨p, _, rfl⟩ := List.mem_map.mp hx
    exact pathJoint_pos log_pi log_A lls p hN
  · intro h
    exact allPaths_ne_nil _ _ hN (by simpa using h)

theorem code_lls_length {Y : Type} (stat : Y → List (List ℝ)) (etas : List (List (List ℝ)))
    (data : List Y) : (code_lls stat etas data).length = data.length := by
  simp [code_lls]

theorem log_likelihoods_length {Y : Type} (stat : Y → List (List ℝ)) (y : Y)
    (etas : List (List (List ℝ))) : (log_likelihoods stat y etas).length = etas.length := by
  simp [log_likelihoods]

theorem log_likelihoods_getD {Y : Type} (stat : Y → List (List ℝ)) (y : Y)
    (etas : List (List (List ℝ))) (k : ℕ) (hk : k < etas.length) :
    (log_likelihoods stat y etas).getD k 0 = inner (etas.getD k []) (stat y ++ [[1]]) := by
  rw [log_likelihoods, List.getD_eq_getElem _ _ (by simpa using hk), List.getElem_map,
    List.getD_eq_getElem _ _ hk]

theorem log_likelihoods_setEta {Y : Type} (stat : Y → List (List ℝ)) (y : Y)
    (etas : List (List (List ℝ))) (k c i : ℕ) (x : ℝ)
    (hk : k < etas.length) (hc : c < (etas.getD k []).length)
    (hi : i < ((etas.getD k []).getD c []).length)
    (hsh : (stat y ++ [[1]]).map List.length = (etas.getD k []).map List.length) :
    log_likelihoods stat y (setEta etas k c i x)
      = (log_likelihoods stat y etas).set k
          ((log_likelihoods stat y etas).getD k 0
            + (x - ((etas.getD k []).getD c []).getD i 0) * augEntry stat c i y) := by
  rw [setEta, log_likelihoods, List.map_set]
  rw [log_likelihoods_getD stat y etas k hk]
  rw [show log_likelihoods stat y etas = etas.map fun eta => inner eta (stat y ++ [[1]])
    from rfl]
  congr 1
  rw [inner_setEntry _ _ c i x hc hi hsh, augEntry]

theorem pathWeight_setEta {Y : Type} (stat : Y → List (List ℝ)) (log_A : List (List ℝ))
    (etas : List (List (List ℝ))) (k c i : ℕ) (x : ℝ)
    (hk : k < etas.length) (hc : c < (etas.getD k []).length)
    (hi : i < ((etas.getD k []).getD c []).length) :
    ∀ (data : List Y) (p : List ℕ) (prev : ℕ),
      (∀ y ∈ data, (stat y ++ [[1]]).map List.length = (etas.getD k []).map List.length) →
      pathWeight log_A prev (data.map fun y => log_likelihoods stat y (setEta etas k c i x)) p
        = Real.exp ((x - ((etas.getD k []).getD c []).getD i 0) * bSum stat c i k data p)
          * pathWeight log_A prev (data.map fun y => log_likelihoods stat y etas) p := by
  intro data
  induction data with
  | nil =>
    intro p prev hsh
    simp [pathWeight, bSum]
  | cons y ys ih =>
    intro p prev hsh
    cases p with
    | nil => simp [pathWeight, bSum]
    | cons j p =>
      simp only [List.map_cons, pathWeight, bSum]
      rw [ih p j fun z hz => hsh z (by simp [hz])]
      rw [log_likelihoods_setEta stat y etas k c i x hk hc hi (hsh y (by simp))]
      by_cases hjk : j = k
      · subst hjk
        rw [getD_set_self _ _ _ _ (by rw [log_likelihoods_length]; exact hk)]
        rw [if_pos rfl, mul_add, Real.exp_add, Real.exp_add]
        ring
      · rw [getD_set_ne _ _ _ _ _ fun h => hjk h.symm]
        rw [if_neg hjk, zero_add]
        ring

theorem pathJoint_setEta {Y : Type} (stat : Y → List (List ℝ)) (log_pi : List ℝ)
    (log_A : List (List ℝ)) (etas : List (List (List ℝ))) (k c i : ℕ) (x : ℝ)
    (hk : k < etas.length) (hc : c < (etas.getD k []).length)
    (hi : i < ((etas.getD k []).getD c []).length) (data : List Y) (p : List ℕ)
    (hsh : ∀ y ∈ data, (stat y ++ [[1]]).map List.length = (etas.getD k []).map List.length) :
    pathJoint log_pi log_A (data.map fun y => log_likelihoods stat y (setEta etas k c i x)) p
      = Real.exp ((x - ((etas.getD k []).getD c []).getD i 0) * bSum stat c i k data p)
        * pathJoint log_pi log_A (data.map fun y => log_likelihoods stat y etas) p := by
  rw [pathJoint, pathJoint, ← List.sum_map_mul_left]
  congr 1
  apply List.map_congr_left
  intro s0 _
  rw [pathWeight_setEta stat log_A etas k c i x hk hc hi data p s0 hsh]
  ring

theorem hasDerivAt_list_sum {α : Type} (L : List α) (f : α → ℝ → ℝ) (fd : α → ℝ) (x0 : ℝ)
    (h : ∀ a ∈ L, HasDerivAt (f a) (fd a) x0) :
    HasDerivAt (fun x => (L.map fun a => f a x).sum) ((L.map fd).sum) x0 := by
  induction L with
  | nil => simpa using hasDerivAt_const x0 (0 : ℝ)
  | cons a L ih =>
    simp only [List.map_cons, List.sum_cons]
    exact (h a (by simp)).add (ih fun b hb => h b (by simp [hb]))

theorem hasDerivAt_exp_linear (B C x0 : ℝ) :
    HasDerivAt (fun x => Real.exp ((x - x0) * B) * C) (B * C) x0 := by
  have h1 : HasDerivAt (fun x : ℝ => (x - x0) * B) B x0 := by
    simpa using ((hasDerivAt_id x0).sub_const x0).mul_const B
  have h3 := h1.exp.mul_const C
  simpa using h3

theorem length_of_mem_allPaths (N : ℕ) : ∀ (T : ℕ) (p : List ℕ),
    p ∈ allPaths N T → p.length = T := by
  intro T
  induction T with
  | zero =>
    intro p hp
    rw [show allPaths N 0 = [[]] from rfl] at hp
    simp only [List.mem_singleton] at hp
    subst hp
    rfl
  | succ T ih =>
    intro p hp
    rw [allPaths] at hp
    obtain ⟨l, hl, hpl⟩ := List.mem_flatten.mp hp
    obtain ⟨s, _, rfl⟩ := List.mem_map.mp hl
    obtain ⟨q, hq, rfl⟩ := List.mem_map.mp hpl
    simp [ih q hq]

theorem bSum_eq_range {Y : Type} (stat : Y → List (List ℝ)) (c i k : ℕ) :
    ∀ (data : List Y) (p : List ℕ), p.length = data.length →
      bSum stat c i k data p
        = ((List.range data.length).map fun t =>
            if p.getD t 0 = k then (data.map (augEntry stat c i)).getD t 0 else 0).sum := by
  intro data
  induction data with
  | nil =>
    intro p hp
    have hnil : p = [] := List.eq_nil_of_length_eq_zero (by simpa using hp)
    subst hnil
    simp [bSum]
  | cons y ys ih =>
    intro p hp
    cases p with
    | nil => simp at hp
    | cons j q =>
      rw [bSum, List.length_cons, List.range_succ_eq_map, List.map_cons, List.sum_cons,
        List.map_map]
      simp only [Function.comp_def, Nat.succ_eq_add_one, List.getD_cons_succ,
        List.getD_cons_zero, List.map_cons]
      rw [ih q (by simpa using hp)]

theorem sum_map_filter_ite' {α : Type} (l : List α) (q : α → Prop) [DecidablePred q]
    (f : α → ℝ) :
    (l.map fun x => if q x then f x else 0).sum = ((l.filter fun x => q x).map f).sum := by
  induction l with
  | nil => rfl
  | cons x xs ih =>
    by_cases h : q x <;> simp [List.filter_cons, h, ih]

theorem hasDerivAt_hmm_eta {Y : Type} (stat : Y → List (List ℝ)) (log_pi : List ℝ)
    (log_A : List (List ℝ)) (etas : List (List (List ℝ))) (data : List Y) (k c i : ℕ)
    (hN : 0 < log_pi.length) (hkE : k < etas.length)
    (hc : c < (etas.getD k []).length) (hi : i < ((etas.getD k []).getD c []).length)
    (hsh : ∀ y ∈ data, (stat y ++ [[1]]).map List.length = (etas.getD k []).map List.length) :
    HasDerivAt
      (fun x => hmm_log_partition_function stat (log_pi, log_A, setEta etas k c i x) data)
      (((List.range data.length).map fun t =>
        posterior log_pi log_A (code_lls stat etas data) t k
          * (data.map (augEntry stat c i)).getD t 0).sum)
      (((etas.getD k []).getD c []).getD i 0) := by
  have hfun : ∀ x, hmm_log_partition_function stat (log_pi, log_A, setEta etas k c i x) data
      = Real.log (((allPaths log_pi.length data.length).map fun p =>
          Real.exp ((x - ((etas.getD k []).getD c []).getD i 0) * bSum stat c i k data p)
            * pathJoint log_pi log_A (code_lls stat etas data) p).sum) := by
    intro x
    rw [hmm_eq_log_bruteZ stat log_pi log_A _ data hN]
    congr 1
    rw [bruteZ, code_lls_length]
    congr 1
    apply List.map_congr_left
    intro p _
    simp only [code_lls]
    exact pathJoint_setEta stat log_pi log_A etas k c i x hkE hc hi data p hsh
  have hZd := hasDerivAt_list_sum (allPaths log_pi.length data.length)
    (fun p x => Real.exp ((x - ((etas.getD k []).getD c []).getD i 0) * bSum stat c i k data p)
      * pathJoint log_pi log_A (code_lls stat etas data) p)
    (fun p => bSum stat c i k data p * pathJoint log_pi log_A (code_lls stat etas data) p)
    (((etas.getD k []).getD c []).getD i 0)
    (fun p _ => hasDerivAt_exp_linear _ _ _)
  have hZ0 : ((allPaths log_pi.length data.length).map fun p =>
      Real.exp ((((etas.getD k []).getD c []).getD i 0
          - ((etas.getD k []).getD c []).getD i 0) * bSum stat c i k data p)
        * pathJoint log_pi log_A (code_lls stat etas data) p).sum
      = bruteZ log_pi log_A (code_lls stat etas data) := by
    rw [bruteZ, code_lls_length]
    congr 1
    apply List.map_congr_left
    intro p _
    simp
  have hpos := bruteZ_pos log_pi log_A (code_lls stat etas data) hN
  have hlog := hZd.log (by rw [hZ0]; exact hpos.ne')
  rw [show (fun x => hmm_log_partition_function stat (log_pi, log_A, setEta etas k c i x) data)
      = fun x => Real.log (((allPaths log_pi.length data.length).map fun p =>
          Real.exp ((x - ((etas.getD k []).getD c []).getD i 0) * bSum stat c i k data p)
            * pathJoint log_pi log_A (code_lls stat etas data) p).sum) from funext hfun]
  convert hlog using 1
  rw [hZ0]
  have h1 : ∀ p ∈ allPaths log_pi.length data.length,
      bSum stat c i k data p * pathJoint log_pi log_A (code_lls stat etas data) p
        = ((List.range data.length).map fun t =>
            (if p.getD t 0 = k then (data.map (augEntry stat c i)).getD t 0 else 0)
              * pathJoint log_pi log_A (code_lls stat etas data) p).sum := by
    intro p hp
    rw [bSum_eq_range stat c i k data p (length_of_mem_allPaths _ _ p hp)]
    rw [List.sum_map_mul_right]
  have hval : ((allPaths log_pi.length data.length).map fun p =>
      bSum stat c i k data p * pathJoint log_pi log_A (code_lls stat etas data) p).sum
      = ((List.range data.length).map fun t =>
          ((data.map (augEntry stat c i)).getD t 0)
            * (((allPaths log_pi.length data.length).filter fun p => p.getD t 0 = k).map
                (pathJoint log_pi log_A (code_lls stat etas data))).sum).sum := by
    rw [List.map_congr_left h1, sum_map_sum_comm]
    congr 1
    apply List.map_congr_left
    intro t _
    rw [show (fun p => (if p.getD t 0 = k then (data.map (augEntry stat c i)).getD t 0 else 0)
          * pathJoint log_pi log_A (code_lls stat etas data) p)
        = fun p => if p.getD t 0 = k then (data.map (augEntry stat c i)).getD t 0
            * pathJoint log_pi log_A (code_lls stat etas data) p else 0 from
      funext fun p => by rw [ite_mul, zero_mul]]
    rw [sum_map_filter_ite']
    rw [List.sum_map_mul_left]
  rw [hval, ← sum_map_div']
  congr 1
  apply List.map_congr_left
  intro t _
  simp only [posterior, code_lls_length]
  ring

theorem bruteZ_set_split {Y : Type} (stat : Y → List (List ℝ)) (log_pi : List ℝ)
    (log_A : List (List ℝ)) (etas : List (List (List ℝ))) (data : List Y) (j : ℕ)
    (hj : j < log_pi.length) (x : ℝ) :
    bruteZ (log_pi.set j x) log_A (code_lls stat etas data)
      = ((allPaths log_pi.length data.length).map fun p =>
          ((List.range log_pi.length).map fun s =>
            if s = j then 0 else Real.exp (log_pi.getD s 0)
              * pathWeight log_A s (code_lls stat etas data) p).sum).sum
        + Real.exp x * ((allPaths log_pi.length data.length).map fun p =>
            pathWeight log_A j (code_lls stat etas data) p).sum := by
  have hp : ∀ p, pathJoint (log_pi.set j x) log_A (code_lls stat etas data) p
      = Real.exp x * pathWeight log_A j (code_lls stat etas data) p
        + ((List.range log_pi.length).map fun s =>
            if s = j then 0 else Real.exp (log_pi.getD s 0)
              * pathWeight log_A s (code_lls stat etas data) p).sum := by
    intro p
    rw [pathJoint, List.length_set]
    rw [sum_range_split log_pi.length j hj]
    congr 1
    · rw [getD_set_self _ _ _ _ hj]
    · congr 1
      apply List.map_congr_left
      intro s _
      by_cases hsj : s = j
      · rw [if_pos hsj, if_pos hsj]
      · rw [if_neg hsj, if_neg hsj, getD_set_ne _ _ _ _ _ fun h => hsj h.symm]
  rw [bruteZ, code_lls_length, List.length_set]
  rw [List.map_congr_left fun p _ => hp p]
  rw [sum_map_add, List.sum_map_mul_left]
  ring

theorem hasDerivAt_hmm_logpi {Y : Type} (stat : Y → List (List ℝ)) (log_pi : List ℝ)
    (log_A : List (List ℝ)) (etas : List (List (List ℝ))) (data : List Y) (j : ℕ)
    (hN : 0 < log_pi.length) (hj : j < log_pi.length) :
    HasDerivAt (fun x => hmm_log_partition_function stat (log_pi.set j x, log_A, etas) data)
      (E_init_component log_pi log_A (code_lls stat etas data) j) (log_pi.getD j 0) := by
  have hpos := bruteZ_pos log_pi log_A (code_lls stat etas data) hN
  have hZx0 : ((allPaths log_pi.length data.length).map fun p =>
        ((List.range log_pi.length).map fun s =>
          if s = j then 0 else Real.exp (log_pi.getD s 0)
            * pathWeight log_A s (code_lls stat etas data) p).sum).sum
      + Real.exp (log_pi.getD j 0) * ((allPaths log_pi.length data.length).map fun p =>
          pathWeight log_A j (code_lls stat etas data) p).sum
      = bruteZ log_pi log_A (code_lls stat etas data) := by
    rw [← bruteZ_set_split stat log_pi log_A etas data j hj (log_pi.getD j 0)]
    rw [set_getD_self _ _ _ hj]
  have hfun : ∀ x, hmm_log_partition_function stat (log_pi.set j x, log_A, etas) data
      = Real.log (((allPaths log_pi.length data.length).map fun p =>
          ((List.range log_pi.length).map fun s =>
            if s = j then 0 else Real.exp (log_pi.getD s 0)
              * pathWeight log_A s (code_lls stat etas data) p).sum).sum
        + Real.exp x * ((allPaths log_pi.length data.length).map fun p =>
            pathWeight log_A j (code_lls stat etas data) p).sum) := by
    intro x
    rw [hmm_eq_log_bruteZ stat _ log_A etas data (by rw [List.length_set]; exact hN)]
    rw [bruteZ_set_split stat log_pi log_A etas data j hj x]
  have hd := ((Real.hasDerivAt_exp (log_pi.getD j 0)).mul_const
      (((allPaths log_pi.length data.length).map fun p =>
        pathWeight log_A j (code_lls stat etas data) p).sum)).const_add
    (((allPaths log_pi.length data.length).map fun p =>
        ((List.range log_pi.length).map fun s =>
          if s = j then 0 else Real.exp (log_pi.getD s 0)
            * pathWeight log_A s (code_lls stat etas data) p).sum).sum)
  have hlog := hd.log (by rw [hZx0]; exact hpos.ne')
  rw [show (fun x => hmm_log_partition_function stat (log_pi.set j x, log_A, etas) data)
      = fun x => Real.log (((allPaths log_pi.length data.length).map fun p =>
          ((List.range log_pi.length).map fun s =>
            if s = j then 0 else Real.exp (log_pi.getD s 0)
              * pathWeight log_A s (code_lls stat etas data) p).sum).sum
        + Real.exp x * ((allPaths log_pi.length data.length).map fun p =>
            pathWeight log_A j (code_lls stat etas data) p).sum) from funext hfun]
  have heq : E_init_component log_pi log_A (code_lls stat etas data) j
      = Real.exp (log_pi.getD j 0) * ((allPaths log_pi.length data.length).map fun p =>
          pathWeight log_A j (code_lls stat etas data) p).sum
        / (((allPaths log_pi.length data.length).map fun p =>
            ((List.range log_pi.length).map fun s =>
              if s = j then 0 else Real.exp (log_pi.getD s 0)
                * pathWeight log_A s (code_lls stat etas data) p).sum).sum
          + Real.exp (log_pi.getD j 0) * ((allPaths log_pi.length data.length).map fun p =>
              pathWeight log_A j (code_lls stat etas data) p).sum) := by
    rw [hZx0]
    unfold E_init_component
    rw [code_lls_length]
  rw [heq]
  exact hlog

theorem E_init_component_sum {Y : Type} (stat : Y → List (List ℝ)) (log_pi : List ℝ)
    (log_A : List (List ℝ)) (etas : List (List (List ℝ))) (data : List Y)
    (hN : 0 < log_pi.length) :
    ((List.range log_pi.length).map
      (E_init_component log_pi log_A (code_lls stat etas data))).sum = 1 := by
  have hpos := bruteZ_pos log_pi log_A (code_lls stat etas data) hN
  rw [show ((List.range log_pi.length).map
        (E_init_component log_pi log_A (code_lls stat etas data)))
      = ((List.range log_pi.length).map fun s =>
        (Real.exp (log_pi.getD s 0) * ((allPaths log_pi.length data.length).map fun p =>
          pathWeight log_A s (code_lls stat etas data) p).sum)
          / bruteZ log_pi log_A (code_lls stat etas data)) from
    List.map_congr_left fun s _ => by
      unfold E_init_component
      rw [code_lls_length]]
  rw [sum_map_div']
  rw [show ((List.range log_pi.length).map fun s =>
        Real.exp (log_pi.getD s 0) * ((allPaths log_pi.length data.length).map fun p =>
          pathWeight log_A s (code_lls stat etas data) p).sum)
      = ((List.range log_pi.length).map fun s =>
        ((allPaths log_pi.length data.length).map fun p =>
          Real.exp (log_pi.getD s 0)
            * pathWeight log_A s (code_lls stat etas data) p).sum) from
    List.map_congr_left fun s _ => (List.sum_map_mul_left _ _ _).symm]
  rw [sum_map_sum_comm]
  rw [show ((allPaths log_pi.length data.length).map fun p =>
        ((List.range log_pi.length).map fun s =>
          Real.exp (log_pi.getD s 0)
            * pathWeight log_A s (code_lls stat etas data) p).sum).sum
      = bruteZ log_pi log_A (code_lls stat etas data) from by
    rw [bruteZ, code_lls_length]
    rfl]
  exact div_self hpos.ne'

/-- C2: the gradient of `hmm_log_partition_function` with respect to the
natural-parameter tuple is the expected sufficient statistics under the
posterior: the derivative with respect to each scalar coordinate `(c, i)`
of `etas[k]` equals the sum over timesteps `t` of the posterior
probability of state `k` at time `t` multiplied by the matching entry of
`statistic(y_t) ++ (1,)`; the derivative with respect to each `log_pi[j]`
is the `E_init` component `j`; and the `E_init` components sum to 1. -/
theorem E_step_gradient {Y : Type} (stat : Y → List (List ℝ)) (log_pi : List ℝ)
    (log_A : List (List ℝ)) (etas : List (List (List ℝ))) (data : List Y) (k c i : ℕ)
    (hN : 0 < log_pi.length) (hkE : k < etas.length)
    (hc : c < (etas.getD k []).length) (hi : i < ((etas.getD k []).getD c []).length)
    (hsh : ∀ y ∈ data, (stat y ++ [[1]]).map List.length = (etas.getD k []).map List.length) :
    HasDerivAt
        (fun x => hmm_log_partition_function stat (log_pi, log_A, setEta etas k c i x) data)
        (((List.range data.length).map fun t =>
          posterior log_pi log_A (code_lls stat etas data) t k
            * (data.map (augEntry stat c i)).getD t 0).sum)
        (((etas.getD k []).getD c []).getD i 0)
      ∧ (∀ j, j < log_pi.length →
          HasDerivAt
            (fun x => hmm_log_partition_function stat (log_pi.set j x, log_A, etas) data)
            (E_init_component log_pi log_A (code_lls stat etas data) j)
            (log_pi.getD j 0))
      ∧ ((List.range log_pi.length).map
          (E_init_component log_pi log_A (code_lls stat etas data))).sum = 1 :=
  ⟨hasDerivAt_hmm_eta stat log_pi log_A etas data k c i hN hkE hc hi hsh,
    fun j hj => hasDerivAt_hmm_logpi stat log_pi log_A etas data j hN hj,
    E_init_component_sum stat log_pi log_A etas data hN⟩

/-- C2 witness: the gradient identity at the one-state model with one
observation carrying the empty statistic. -/
theorem E_step_gradient_witness :
    HasDerivAt
        (fun x => hmm_log_partition_function (fun _ : ℕ => ([] : List (List ℝ)))
          (([0] : List ℝ), ([[0]] : List (List ℝ)), setEta [[[0]]] 0 0 0 x) [0])
        (((List.range ([0] : List ℕ).length).map fun t =>
          posterior [0] [[0]]
              (code_lls (fun _ : ℕ => ([] : List (List ℝ))) [[[0]]] [0]) t 0
            * (([0] : List ℕ).map
                (augEntry (fun _ : ℕ => ([] : List (List ℝ))) 0 0)).getD t 0).sum)
        (((([[[0]]] : List (List (List ℝ))).getD 0 []).getD 0 []).getD 0 0)
      ∧ (∀ j, j < ([0] : List ℝ).length →
          HasDerivAt
            (fun x => hmm_log_partition_function (fun _ : ℕ => ([] : List (List ℝ)))
              (([0] : List ℝ).set j x, [[0]], [[[0]]]) [0])
            (E_init_component [0] [[0]]
              (code_lls (fun _ : ℕ => ([] : List (List ℝ))) [[[0]]] [0]) j)
            (([0] : List ℝ).getD j 0))
      ∧ ((List.range ([0] : List ℝ).length).map
          (E_init_component [0] [[0]]
            (code_lls (fun _ : ℕ => ([] : List (List ℝ))) [[[0]]] [0]))).sum = 1 :=
  E_step_gradient (fun _ : ℕ => ([] : List (List ℝ))) [0] [[0]] [[[0]]] [0] 0 0 0
    (by simp) (by simp) (by simp) (by simp) (by intro y hy; simp)

end GHMM
